import Mathlib

/-!
# libjio — a shallow embedding of the journaled I/O library

The repository ships the public header `src/libjio/libjio.h`; the
implementation behind it (transaction engine, journal record codec,
checker) is described by the specification.  This file embeds the data
model and the operations: the data file as a byte map, transactions as
ordered operation lists, the commit / rollback protocols with explicit
fault injection, the on-disk journal record codec with its trailing
checksum, and the checker.  Definitions that embed parts of the
implementation not present under `src/` are modelled from the
specification and say so in their doc comments.
-/

/-! ## Flag constants (from `src/libjio/libjio.h`, lines 379–398) -/

/-- `J_NOLOCK = 1`: don't lock the file before operating on it. -/
def J_NOLOCK : Nat := 1

/-- `J_NOROLLBACK = 2`: no need to read rollback information. -/
def J_NOROLLBACK : Nat := 2

/-- `J_LINGER = 4`: use lingering transactions. -/
def J_LINGER : Nat := 4

/-- `J_COMMITTED = 8`: marks a transaction as committed. -/
def J_COMMITTED : Nat := 8

/-- `J_ROLLBACKED = 16`: marks a transaction as rollbacked. -/
def J_ROLLBACKED : Nat := 16

/-- `J_ROLLBACKING = 32`: marks a transaction as rollbacking. -/
def J_ROLLBACKING : Nat := 32

/-- `J_RDONLY = 64`: marks a file as read-only. -/
def J_RDONLY : Nat := 64

/-! ## jfsck() sentinels (from `src/libjio/libjio.h`, lines 401–415) -/

/-- `J_ESUCCESS = 0`: success. -/
def J_ESUCCESS : Int := 0

/-- `J_ENOENT = -1`: no such file or directory. -/
def J_ENOENT : Int := -1

/-- `J_ENOJOURNAL = -2`: no journal associated with the given file. -/
def J_ENOJOURNAL : Int := -2

/-- `J_ENOMEM = -3`: not enough free memory. -/
def J_ENOMEM : Int := -3

/-! ## Data model: the data file and write operations -/

/-- The data file, as the byte stored at each offset.  Writes beyond the
current end behave like sparse extension, so the byte map is total. -/
def File : Type := Nat → Nat

/-- One operation of a transaction: a buffer of bytes to be written at a
given offset (`jtrans_add`'s `buf`/`count` pair is kept as the list of
the first `count` bytes of `buf`). -/
structure Operation where
  buf : List Nat
  offset : Nat
  deriving Repr, DecidableEq

/-- Whether operation `op` covers byte offset `b`. -/
def opCovers (op : Operation) (b : Nat) : Prop :=
  op.offset ≤ b ∧ b < op.offset + op.buf.length

instance (op : Operation) (b : Nat) : Decidable (opCovers op b) := by
  unfold opCovers; infer_instance

/-- The byte an operation writes at offset `b` (meaningful when
`opCovers op b`). -/
def opValueAt (op : Operation) (b : Nat) : Nat :=
  op.buf.getD (b - op.offset) 0

/-- Issue one operation directly on the file, as a plain positional
write of the buffer at its offset. -/
def writeOp (f : File) (op : Operation) : File :=
  fun b => if opCovers op b then opValueAt op b else f b

/-- Issue a list of operations directly on the file, in list order. -/
def applyOps (f : File) (ops : List Operation) : File :=
  ops.foldl writeOp f

/-- Whether byte offset `b` lies in the union of the operations' ranges. -/
def coveredBy (ops : List Operation) (b : Nat) : Prop :=
  ∃ op ∈ ops, opCovers op b

instance (ops : List Operation) (b : Nat) : Decidable (coveredBy ops b) := by
  unfold coveredBy; infer_instance

/-- The latest operation in the list covering byte offset `b`, if any. -/
def lastCovering (ops : List Operation) (b : Nat) : Option Operation :=
  ops.reverse.find? (fun op => decide (opCovers op b))

/-- Read `len` bytes of the file starting at `off`. -/
def readRange (f : File) (off len : Nat) : List Nat :=
  (List.range len).map (fun i => f (off + i))

/-- Sum of the operation lengths: the byte count a successful commit
reports. -/
def totalBytes (ops : List Operation) : Nat :=
  (ops.map (fun op => op.buf.length)).sum

/-- Modelled from the spec: commit step 3 — read back the current bytes
at each operation's (offset, length) into per-operation undo buffers. -/
def captureUndo (f : File) (ops : List Operation) : List Operation :=
  ops.map (fun op => { buf := readRange f op.offset op.buf.length, offset := op.offset })

/-! ### Basic facts about applying operations -/

theorem applyOps_nil (f : File) : applyOps f [] = f := rfl

theorem applyOps_cons (f : File) (op : Operation) (ops : List Operation) :
    applyOps f (op :: ops) = applyOps (writeOp f op) ops := rfl

theorem applyOps_append (f : File) (l₁ l₂ : List Operation) :
    applyOps f (l₁ ++ l₂) = applyOps (applyOps f l₁) l₂ :=
  List.foldl_append writeOp f l₁ l₂

/-- A byte no operation covers keeps the base file's value. -/
theorem applyOps_not_covered (f : File) (ops : List Operation) (b : Nat)
    (h : ¬ coveredBy ops b) : applyOps f ops b = f b := by
  induction ops generalizing f with
  | nil => rfl
  | cons op rest ih =>
    rw [applyOps_cons, ih]
    · simp only [writeOp]
      rw [if_neg]
      intro hc
      exact h ⟨op, List.mem_cons_self op rest, hc⟩
    · intro ⟨o, ho, hc⟩
      exact h ⟨o, List.mem_cons_of_mem op ho, hc⟩

/-- `lastCovering` finds an operation exactly on the covered bytes. -/
theorem lastCovering_isSome_iff (ops : List Operation) (b : Nat) :
    (lastCovering ops b).isSome ↔ coveredBy ops b := by
  unfold lastCovering coveredBy
  rw [List.find?_isSome]
  constructor
  · rintro ⟨op, hmem, hp⟩
    exact ⟨op, List.mem_reverse.mp hmem, of_decide_eq_true hp⟩
  · rintro ⟨op, hmem, hp⟩
    exact ⟨op, List.mem_reverse.mpr hmem, decide_eq_true hp⟩

/-- Splitting off the last operation of the latest-covering search. -/
theorem lastCovering_append_singleton (rest : List Operation) (last : Operation)
    (b : Nat) :
    lastCovering (rest ++ [last]) b =
      if opCovers last b then some last else lastCovering rest b := by
  unfold lastCovering
  rw [List.reverse_append]
  simp only [List.reverse_cons, List.reverse_nil, List.nil_append,
    List.singleton_append]
  by_cases hc : opCovers last b <;> simp [List.find?_cons, hc]

/-- Applying one more operation on top of an applied list. -/
theorem applyOps_append_singleton (f : File) (rest : List Operation)
    (last : Operation) :
    applyOps f (rest ++ [last]) = writeOp (applyOps f rest) last := by
  rw [applyOps_append]; rfl

/-- A covered byte gets the value of the latest covering operation,
regardless of the base file. -/
theorem applyOps_lastCovering (f : File) (ops : List Operation) (b : Nat)
    (op : Operation) (h : lastCovering ops b = some op) :
    applyOps f ops b = opValueAt op b := by
  induction ops using List.reverseRecOn generalizing f with
  | nil => simp [lastCovering] at h
  | append_singleton rest last ih =>
    rw [applyOps_append_singleton]
    rw [lastCovering_append_singleton] at h
    by_cases hc : opCovers last b
    · rw [if_pos hc] at h
      simp only [Option.some.injEq] at h
      subst h
      simp [writeOp, hc]
    · rw [if_neg hc] at h
      have hnc : writeOp (applyOps f rest) last b = applyOps f rest b := by
        simp [writeOp, hc]
      rw [hnc]
      exact ih f h

/-- The value at a covered byte does not depend on the base file. -/
theorem applyOps_covered_base_free (f g : File) (ops : List Operation) (b : Nat)
    (h : coveredBy ops b) : applyOps f ops b = applyOps g ops b := by
  obtain ⟨op, hop⟩ := Option.isSome_iff_exists.mp
    ((lastCovering_isSome_iff ops b).mpr h)
  rw [applyOps_lastCovering f ops b op hop, applyOps_lastCovering g ops b op hop]

/-- Completing a partially applied transaction: re-applying all the
operations on top of any applied prefix gives the same file as applying
them on the original file. -/
theorem applyOps_take_applyOps (f : File) (ops : List Operation) (k : Nat) (b : Nat) :
    applyOps (applyOps f (ops.take k)) ops b = applyOps f ops b := by
  by_cases h : coveredBy ops b
  · exact applyOps_covered_base_free _ f ops b h
  · rw [applyOps_not_covered _ ops b h, applyOps_not_covered f ops b h,
      applyOps_not_covered f (ops.take k) b]
    intro ⟨op, hmem, hc⟩
    exact h ⟨op, List.mem_of_mem_take hmem, hc⟩

/-- If every operation of a list writes, on every byte it covers, the
value of a fixed file `v`, then applying the list leaves every covered
byte holding `v`'s value, no matter the base file. -/
theorem applyOps_value_eq (g v : File) (ops : List Operation) (b : Nat)
    (hval : ∀ op ∈ ops, opCovers op b → opValueAt op b = v b)
    (hcov : coveredBy ops b) : applyOps g ops b = v b := by
  obtain ⟨op, hfind⟩ := Option.isSome_iff_exists.mp
    ((lastCovering_isSome_iff ops b).mpr hcov)
  have hfind' : ops.reverse.find? (fun op => decide (opCovers op b)) = some op := hfind
  have hmem : op ∈ ops := List.mem_reverse.mp (List.mem_of_find?_eq_some hfind')
  have hp := @List.find?_some Operation (fun o => decide (opCovers o b)) op
    ops.reverse hfind'
  have hcop : opCovers op b := of_decide_eq_true hp
  rw [applyOps_lastCovering g ops b op hfind]
  exact hval op hmem hcop

/-! ### Bit-flag helpers -/

/-- A high flag or-ed in does not disturb a disjoint flag test. -/
theorem lor_and_eq_of_and_eq_zero (fl : Nat) {a b : Nat} (h : a &&& b = 0) :
    (fl ||| a) &&& b = fl &&& b := by
  apply Nat.eq_of_testBit_eq
  intro k
  have hk : a.testBit k = true → b.testBit k = false := by
    have := congrArg (fun n => n.testBit k) h
    simpa [Nat.testBit_land] using this
  simp only [Nat.testBit_land, Nat.testBit_lor]
  cases hfl : fl.testBit k <;> cases hb : b.testBit k <;> cases ha : a.testBit k <;>
    simp_all

/-- Or-ing a flag in makes its own flag test positive. -/
theorem lor_and_self (fl a : Nat) : (fl ||| a) &&& a = a := by
  apply Nat.eq_of_testBit_eq
  intro k
  simp only [Nat.testBit_land, Nat.testBit_lor]
  cases hfl : fl.testBit k <;> cases ha : a.testBit k <;> simp_all

/-! ## The transaction engine

Modelled from the spec: the implementation of the transaction engine
(`trans.c`) is not under `src/`, so the commit and rollback protocols of
§4.4 of the specification are embedded here step by step, with an
explicit fault parameter naming the protocol step at which an I/O or
lock error strikes. -/

/-- A transaction (the opaque `jtrans_t` of the header): owning-handle
flags, the ordered operation list, and the per-operation undo images
captured at commit time. -/
structure Jtrans where
  flags : Nat
  ops : List Operation
  undo : List Operation
  deriving Repr, DecidableEq

/-- An on-disk journal record: the persistent representation of one
transaction, named by its id in the journal directory. -/
structure Record where
  id : Nat
  flags : Nat
  ops : List Operation
  undo : List Operation
  deriving Repr, DecidableEq

/-- The state outside the process: the data file, the journal directory
(its record files and its id counter) and the advisory range locks held
on the data file. -/
structure World where
  file : File
  journal : List Record
  counter : Nat
  locks : List (Nat × Nat)

/-- Modelled from the spec: where an injected fault strikes the commit
protocol of §4.4.  `ok` is a fault-free run; `early step` is an I/O or
lock error at one of steps 1–5, before the commit mark is durable;
`apply k` is an error during step 6, after the first `k` operations
were applied to the data file. -/
inductive Fault where
  | ok
  | early (step : Nat)
  | apply (k : Nat)
  deriving Repr, DecidableEq

/-- The three outcomes `jtrans_commit` can report. -/
inductive CommitResult where
  | ok (bytes : Nat)
  | atomicFail
  | severeFail
  deriving Repr, DecidableEq

/-- The `ssize_t` the library returns for each outcome: the byte count
on success, `-1` on an error with atomic warranties preserved, `-2` on
an error with a possible break of atomic warranties. -/
def resCode : CommitResult → Int
  | .ok n => n
  | .atomicFail => -1
  | .severeFail => -2

/-- Result of a commit or rollback call: the reported outcome, the
world afterwards, and the in-memory transaction afterwards. -/
structure CommitOut where
  res : CommitResult
  world : World
  trans : Jtrans

/-- Modelled from the spec: the union range R of a transaction's
operations, the contiguous span the commit locks on the data file. -/
def unionRange (ops : List Operation) : Nat × Nat :=
  ((ops.map (fun op => op.offset)).foldr Nat.min
      ((ops.map (fun op => op.offset)).headD 0),
   (ops.map (fun op => op.offset + op.buf.length)).foldr Nat.max 0)

/-- Acquire an exclusive advisory range lock on the data file. -/
def lockRange (w : World) (r : Nat × Nat) : World :=
  { w with locks := r :: w.locks }

/-- Release an advisory range lock. -/
def unlockRange (w : World) (r : Nat × Nat) : World :=
  { w with locks := w.locks.erase r }

/-- All the record-header flag bits except `J_COMMITTED`: commit step 4
writes the header with the `J_COMMITTED` bit cleared. -/
def clearCommitted (fl : Nat) : Nat :=
  fl &&& (J_NOLOCK ||| J_NOROLLBACK ||| J_LINGER |||
    J_ROLLBACKED ||| J_ROLLBACKING ||| J_RDONLY)

/-- The undo images commit step 3 captures for transaction `t` in world
`w`: none when `J_NOROLLBACK` or `J_RDONLY` is set, otherwise the
current bytes of each operation's range. -/
def commitUndo (w : World) (t : Jtrans) : List Operation :=
  if t.flags &&& J_NOROLLBACK ≠ 0 ∨ t.flags &&& J_RDONLY ≠ 0 then []
  else captureUndo w.file t.ops

/-- Modelled from the spec: `jtrans_commit` (§4.4 commit protocol).
Step 1 allocates the id from the directory counter; step 2 acquires the
range lock unless `J_NOLOCK`; step 3 captures undo images unless
`J_NOROLLBACK` or `J_RDONLY`; steps 4–5 write the record body and then
durably set the commit mark; step 6 applies the operations to the data
file in insertion order; step 7 releases the range lock; step 8 retires
the record.  A fault at steps 1–5 aborts with the data file untouched
(leaving at most an uncommitted body, which the checker sweeps); a
fault during step 6 leaves the committed record on disk and the data
file partially applied; range locks are released on every exit path. -/
def jtrans_commit (fault : Fault) (w : World) (t : Jtrans) : CommitOut :=
  let id := w.counter
  let w1 : World := { w with counter := w.counter + 1 }
  let nolock := t.flags &&& J_NOLOCK ≠ 0
  let r := unionRange t.ops
  let wL := if nolock then w1 else lockRange w1 r
  let undo := commitUndo w t
  let wU := if nolock then wL else unlockRange wL r
  match fault with
  | .early step =>
      let body : List Record :=
        if 4 ≤ step then [⟨id, clearCommitted t.flags, t.ops, undo⟩] else []
      { res := .atomicFail,
        world := { file := w.file, journal := w1.journal ++ body,
                   counter := w1.counter, locks := wU.locks },
        trans := t }
  | .apply k =>
      { res := .severeFail,
        world := { file := applyOps w.file (t.ops.take k),
                   journal := w1.journal ++ [⟨id, t.flags ||| J_COMMITTED, t.ops, undo⟩],
                   counter := w1.counter, locks := wU.locks },
        trans := { t with undo := undo } }
  | .ok =>
      { res := .ok (totalBytes t.ops),
        world := { file := applyOps w.file t.ops, journal := w1.journal,
                   counter := w1.counter, locks := wU.locks },
        trans := { t with undo := undo, flags := t.flags ||| J_COMMITTED } }

/-- Result of a `jtrans_add` call: the reported `int`, the world
afterwards, and the transaction afterwards. -/
structure AddOut where
  res : Int
  world : World
  trans : Jtrans

/-- Modelled from the spec and the header's contract for `jtrans_add`:
append the operation (the first `count` bytes of `buf`, to be written
at `offset`) to the in-memory transaction.  The file is not touched —
not even locked — until commit time; `allocFail` injects the only
failure mode (memory allocation), reported as `-1` with nothing
changed. -/
def jtrans_add (allocFail : Bool) (w : World) (t : Jtrans)
    (buf : List Nat) (count : Nat) (offset : Nat) : AddOut :=
  if allocFail then
    { res := -1, world := w, trans := t }
  else
    { res := 0, world := w,
      trans := { t with ops := t.ops ++ [{ buf := buf.take count, offset := offset }] } }

/-- Modelled from the spec: `jtrans_rollback` (§4.4 rollback protocol).
Requires that the transaction was committed with rollback information
(`J_NOROLLBACK` not set).  Marks the transaction `J_ROLLBACKING`,
builds a derived transaction from the undo images at the same offsets
in reverse order of the original operations, commits it with the
`J_ROLLBACKED` bit in its header flags, and on success marks the
original transaction `J_ROLLBACKED`.  The return convention is that of
`jtrans_commit`. -/
def jtrans_rollback (fault : Fault) (w : World) (t : Jtrans) : CommitOut :=
  if t.flags &&& J_NOROLLBACK ≠ 0 then
    { res := .atomicFail, world := w, trans := t }
  else
    let t1 : Jtrans := { t with flags := t.flags ||| J_ROLLBACKING }
    let tr : Jtrans := { flags := t1.flags ||| J_ROLLBACKED, ops := t1.undo.reverse,
                         undo := [] }
    let out := jtrans_commit fault w tr
    { res := out.res, world := out.world,
      trans :=
        match out.res with
        | .ok _ => { t1 with flags := t1.flags ||| J_ROLLBACKED }
        | _ => t1 }

/-! ## Crash points and checker recovery

Modelled from the spec: §4.4's state machine and §4.5's recovery
semantics.  A crash may strike at any instant of a commit; the
persistent states it can leave behind are enumerated by `CrashPoint`,
and `jfsck_recover` is the checker's action on the surviving disk
state: committed records are reapplied in full and deleted, records
without the commit mark are swept without touching the data file. -/

/-- The durable states a crash during one commit can leave on disk:
before the record body is durable (steps 1–3, or during 4); body
durable but `J_COMMITTED` not set (after step 4, or during 5);
`J_COMMITTED` durable with the first `k` operations applied (during or
after step 6); record retired after full apply (after step 8). -/
inductive CrashPoint where
  | preRecord
  | bodyWritten
  | marked (k : Nat)
  | retired
  deriving Repr, DecidableEq

/-- Whether the commit mark was durably set at this crash point. -/
def crashCommitted : CrashPoint → Bool
  | .preRecord => false
  | .bodyWritten => false
  | .marked _ => true
  | .retired => true

/-- Modelled from the spec: the disk state (data file and journal
directory) a crash at the given point leaves behind, for a commit of
transaction `t` with record id `id` starting from world `w`. -/
def diskAfter (w : World) (t : Jtrans) (id : Nat) : CrashPoint → World
  | .preRecord => w
  | .bodyWritten =>
      { w with journal := w.journal ++
          [⟨id, clearCommitted t.flags, t.ops, commitUndo w t⟩] }
  | .marked k =>
      { w with file := applyOps w.file (t.ops.take k),
               journal := w.journal ++
                 [⟨id, t.flags ||| J_COMMITTED, t.ops, commitUndo w t⟩] }
  | .retired =>
      { w with file := applyOps w.file t.ops }

/-- Checker action on one journal record: a record with the commit mark
is reapplied in full; one without it never reaches the data file. -/
def recoverRec (f : File) (r : Record) : File :=
  if r.flags &&& J_COMMITTED ≠ 0 then applyOps f r.ops else f

/-- Modelled from the spec: the recovery pass of `jfsck` — scan the
journal directory in order, reapply every record whose `J_COMMITTED`
bit is durably set, and remove every record. -/
def jfsck_recover (w : World) : World :=
  { w with file := w.journal.foldl recoverRec w.file, journal := [] }

/-! ### Undo-image facts -/

theorem readRange_length (f : File) (off len : Nat) :
    (readRange f off len).length = len := by
  simp [readRange]

/-- Undo images cover exactly the bytes the original operations cover. -/
theorem captureUndo_covers (f : File) (ops : List Operation) (b : Nat) :
    coveredBy (captureUndo f ops) b ↔ coveredBy ops b := by
  unfold coveredBy captureUndo
  constructor
  · rintro ⟨op', hmem, hc⟩
    obtain ⟨op, hop, rfl⟩ := List.mem_map.mp hmem
    refine ⟨op, hop, ?_⟩
    simpa [opCovers, readRange_length] using hc
  · rintro ⟨op, hmem, hc⟩
    refine ⟨_, List.mem_map.mpr ⟨op, hmem, rfl⟩, ?_⟩
    simpa [opCovers, readRange_length] using hc

/-- Reading back a range and indexing it lands on the file's byte. -/
theorem readRange_getD (f : File) (off len b : Nat) (h1 : off ≤ b)
    (h2 : b < off + len) : (readRange f off len).getD (b - off) 0 = f b := by
  have hlt : b - off < len := by omega
  unfold readRange
  rw [List.getD_eq_getElem _ _ (by simpa using hlt)]
  simp only [List.getElem_map, List.getElem_range]
  congr 1
  omega

/-- On every byte it covers, an undo image holds the pre-commit byte of
the file it was captured from. -/
theorem captureUndo_value (f : File) (ops : List Operation) (op' : Operation)
    (hmem : op' ∈ captureUndo f ops) (b : Nat) (hc : opCovers op' b) :
    opValueAt op' b = f b := by
  obtain ⟨op, hop, rfl⟩ := List.mem_map.mp hmem
  have h1 : op.offset ≤ b := hc.1
  have h2 : b < op.offset + op.buf.length := by
    simpa [readRange_length] using hc.2
  show (readRange f op.offset op.buf.length).getD (b - op.offset) 0 = f b
  exact readRange_getD f op.offset op.buf.length b h1 h2

theorem totalBytes_reverse (ops : List Operation) :
    totalBytes ops.reverse = totalBytes ops := by
  unfold totalBytes
  rw [List.map_reverse, List.sum_reverse]

/-- The commit mark never survives the body-write mask. -/
theorem clearCommitted_not_committed (fl : Nat) :
    clearCommitted fl &&& J_COMMITTED = 0 := by
  unfold clearCommitted
  rw [Nat.land_assoc]
  have h : (J_NOLOCK ||| J_NOROLLBACK ||| J_LINGER ||| J_ROLLBACKED |||
      J_ROLLBACKING ||| J_RDONLY) &&& J_COMMITTED = 0 := by decide
  rw [h]
  simp

/-- Setting the commit mark makes the commit-mark test positive. -/
theorem committed_set (fl : Nat) : (fl ||| J_COMMITTED) &&& J_COMMITTED ≠ 0 := by
  rw [lor_and_self]
  decide

/-- C1: For every transaction T built by jtrans_add and committed
successfully by jtrans_commit, the data file's content afterwards is
identical to what direct writes of T's operations at their offsets,
issued in insertion order, would produce; in particular, for every byte
b in the union of T's operation ranges, reading b afterwards yields the
value from the latest operation in T covering b (overlap within one
transaction is resolved last-write-wins). -/
theorem jtrans_commit_success_applies_ops (fault : Fault) (w : World) (t : Jtrans)
    (n : Nat) (h : (jtrans_commit fault w t).res = .ok n) :
    (∀ b, (jtrans_commit fault w t).world.file b = applyOps w.file t.ops b) ∧
    (∀ b, coveredBy t.ops b → ∃ op, lastCovering t.ops b = some op ∧
      (jtrans_commit fault w t).world.file b = opValueAt op b) := by
  cases fault with
  | ok =>
    constructor
    · intro b; rfl
    · intro b hb
      obtain ⟨op, hop⟩ := Option.isSome_iff_exists.mp
        ((lastCovering_isSome_iff t.ops b).mpr hb)
      exact ⟨op, hop, applyOps_lastCovering _ _ _ _ hop⟩
  | early step => simp [jtrans_commit] at h
  | apply k => simp [jtrans_commit] at h

theorem jtrans_commit_success_applies_ops_witness :
    (jtrans_commit .ok ⟨fun _ => 0, [], 0, []⟩ ⟨0, [⟨[7, 8], 1⟩], []⟩).res = .ok 2 ∧
    ((∀ b, (jtrans_commit .ok ⟨fun _ => 0, [], 0, []⟩
        ⟨0, [⟨[7, 8], 1⟩], []⟩).world.file b =
      applyOps (fun _ => 0) [⟨[7, 8], 1⟩] b) ∧
    (∀ b, coveredBy [⟨[7, 8], 1⟩] b → ∃ op, lastCovering [⟨[7, 8], 1⟩] b = some op ∧
      (jtrans_commit .ok ⟨fun _ => 0, [], 0, []⟩
        ⟨0, [⟨[7, 8], 1⟩], []⟩).world.file b = opValueAt op b)) :=
  ⟨rfl, jtrans_commit_success_applies_ops .ok ⟨fun _ => 0, [], 0, []⟩
    ⟨0, [⟨[7, 8], 1⟩], []⟩ 2 rfl⟩

/-- C3: jtrans_commit returns exactly one of three outcomes, never
conflated: on success, the total number of bytes written across all
operations; −1 when an error occurs at or before the durable commit
mark (step 5), in which case atomicity is preserved; −2 when an error
occurs after the commit mark during apply (step 6), a severe failure in
which the data file may be in an intermediate state but the committed
record remains on disk for the checker. -/
theorem jtrans_commit_return_convention (fault : Fault) (w : World) (t : Jtrans) :
    (fault = .ok → (jtrans_commit fault w t).res = .ok (totalBytes t.ops) ∧
      resCode (jtrans_commit fault w t).res = (totalBytes t.ops : Int)) ∧
    (∀ step, fault = .early step → resCode (jtrans_commit fault w t).res = -1 ∧
      ∀ b, (jtrans_commit fault w t).world.file b = w.file b) ∧
    (∀ k, fault = .apply k → resCode (jtrans_commit fault w t).res = -2 ∧
      ∃ r ∈ (jtrans_commit fault w t).world.journal,
        r.ops = t.ops ∧ r.flags &&& J_COMMITTED ≠ 0) ∧
    (∀ m : Nat, resCode (.ok m) ≠ resCode .atomicFail ∧
      resCode (.ok m) ≠ resCode .severeFail ∧
      resCode .atomicFail ≠ resCode .severeFail) := by
  refine ⟨?_, ?_, ?_, ?_⟩
  · rintro rfl
    exact ⟨rfl, rfl⟩
  · rintro step rfl
    exact ⟨rfl, fun b => rfl⟩
  · rintro k rfl
    refine ⟨rfl, ⟨w.counter, t.flags ||| J_COMMITTED, t.ops, commitUndo w t⟩, ?_, rfl,
      committed_set t.flags⟩
    exact List.mem_append_right _ (List.mem_singleton.mpr rfl)
  · intro m
    refine ⟨?_, ?_, ?_⟩ <;> simp [resCode]

theorem jtrans_commit_return_convention_witness :
    resCode (jtrans_commit (.apply 0) ⟨fun _ => 0, [], 0, []⟩
      ⟨0, [⟨[5], 0⟩], []⟩).res = -2 ∧
    ∃ r ∈ (jtrans_commit (.apply 0) ⟨fun _ => 0, [], 0, []⟩
      ⟨0, [⟨[5], 0⟩], []⟩).world.journal,
      r.ops = [⟨[5], 0⟩] ∧ r.flags &&& J_COMMITTED ≠ 0 :=
  (jtrans_commit_return_convention (.apply 0) ⟨fun _ => 0, [], 0, []⟩
    ⟨0, [⟨[5], 0⟩], []⟩).2.2.1 0 rfl

/-- C4: For every transaction whose jtrans_commit returns atomic failure
(error at or before the durable commit mark), every byte of the data
file afterwards holds exactly the value it held before the commit began
— the failed commit has no effect on the data file and may be
retried. -/
theorem jtrans_commit_atomic_failure_no_effect (fault : Fault) (w : World)
    (t : Jtrans) (h : (jtrans_commit fault w t).res = .atomicFail) :
    ∀ b, (jtrans_commit fault w t).world.file b = w.file b := by
  cases fault with
  | ok => simp [jtrans_commit] at h
  | early step => intro b; rfl
  | apply k => simp [jtrans_commit] at h

theorem jtrans_commit_atomic_failure_no_effect_witness :
    (jtrans_commit (.early 3) ⟨fun _ => 9, [], 0, []⟩
      ⟨0, [⟨[5], 0⟩], []⟩).res = .atomicFail ∧
    ∀ b, (jtrans_commit (.early 3) ⟨fun _ => 9, [], 0, []⟩
      ⟨0, [⟨[5], 0⟩], []⟩).world.file b = (fun _ => 9 : File) b :=
  ⟨rfl, jtrans_commit_atomic_failure_no_effect (.early 3) ⟨fun _ => 9, [], 0, []⟩
    ⟨0, [⟨[5], 0⟩], []⟩ rfl⟩

/-! ### Rollback is a commit of the derived undo transaction -/

/-- With rollback information available, the world a rollback leaves
behind is the world of committing the derived undo transaction: the
undo images at their offsets, in reverse order of the original
operations. -/
theorem jtrans_rollback_world (fault : Fault) (w : World) (t : Jtrans)
    (h : t.flags &&& J_NOROLLBACK = 0) :
    (jtrans_rollback fault w t).world =
      (jtrans_commit fault w
        ⟨t.flags ||| J_ROLLBACKING ||| J_ROLLBACKED, t.undo.reverse, []⟩).world := by
  unfold jtrans_rollback
  rw [if_neg (by simp [h])]

/-- With rollback information available, the outcome a rollback reports
is the outcome of committing the derived undo transaction. -/
theorem jtrans_rollback_res (fault : Fault) (w : World) (t : Jtrans)
    (h : t.flags &&& J_NOROLLBACK = 0) :
    (jtrans_rollback fault w t).res =
      (jtrans_commit fault w
        ⟨t.flags ||| J_ROLLBACKING ||| J_ROLLBACKED, t.undo.reverse, []⟩).res := by
  unfold jtrans_rollback
  rw [if_neg (by simp [h])]

/-- C5: For every transaction T committed successfully with rollback
information captured (NOROLLBACK not set on the transaction and the
handle not read-only), a subsequent successful jtrans_rollback of T
restores byte-for-byte the content that the operation ranges held
before T's commit, by committing a derived transaction of T's undo
images at the same offsets in reverse order of T's operations. -/
theorem jtrans_rollback_restores_precommit (w : World) (t : Jtrans)
    (hnr : t.flags &&& J_NOROLLBACK = 0) (hro : t.flags &&& J_RDONLY = 0) :
    ∀ b, coveredBy t.ops b →
      (jtrans_rollback .ok (jtrans_commit .ok w t).world
        (jtrans_commit .ok w t).trans).world.file b = w.file b := by
  intro b hb
  have hguard : (jtrans_commit .ok w t).trans.flags &&& J_NOROLLBACK = 0 := by
    show (t.flags ||| J_COMMITTED) &&& J_NOROLLBACK = 0
    rw [lor_and_eq_of_and_eq_zero t.flags (by decide), hnr]
  rw [jtrans_rollback_world .ok (jtrans_commit .ok w t).world
    (jtrans_commit .ok w t).trans hguard]
  have hundo : (jtrans_commit .ok w t).trans.undo = captureUndo w.file t.ops := by
    show commitUndo w t = _
    unfold commitUndo
    rw [if_neg (by simp [hnr, hro])]
  have hfile : (jtrans_commit .ok
      (jtrans_commit .ok w t).world
      ⟨(jtrans_commit .ok w t).trans.flags ||| J_ROLLBACKING ||| J_ROLLBACKED,
        (jtrans_commit .ok w t).trans.undo.reverse, []⟩).world.file =
      applyOps (applyOps w.file t.ops) (jtrans_commit .ok w t).trans.undo.reverse :=
    rfl
  rw [hfile, hundo]
  apply applyOps_value_eq
  · intro op hmem hcop
    exact captureUndo_value w.file t.ops op (List.mem_reverse.mp hmem) b hcop
  · obtain ⟨op, hmem, hcop⟩ := (captureUndo_covers w.file t.ops b).mpr hb
    exact ⟨op, List.mem_reverse.mpr hmem, hcop⟩

theorem jtrans_rollback_restores_precommit_witness :
    (0 : Nat) &&& J_NOROLLBACK = 0 ∧ (0 : Nat) &&& J_RDONLY = 0 ∧
    ∀ b, coveredBy [⟨[9], 0⟩] b →
      (jtrans_rollback .ok
        (jtrans_commit .ok ⟨fun i => i + 1, [], 0, []⟩ ⟨0, [⟨[9], 0⟩], []⟩).world
        (jtrans_commit .ok ⟨fun i => i + 1, [], 0, []⟩
          ⟨0, [⟨[9], 0⟩], []⟩).trans).world.file b = (fun i => i + 1 : File) b :=
  ⟨by decide, by decide,
    jtrans_rollback_restores_precommit ⟨fun i => i + 1, [], 0, []⟩
      ⟨0, [⟨[9], 0⟩], []⟩ (by decide) (by decide)⟩

/-- C9: For every transaction and every call to jtrans_add, neither
the data file nor the journal directory is modified and no lock is
taken: jtrans_add changes only the in-memory transaction (appending the
operation), and the file is first touched at commit time. -/
theorem jtrans_add_frame (allocFail : Bool) (w : World) (t : Jtrans)
    (buf : List Nat) (count offset : Nat) :
    (jtrans_add allocFail w t buf count offset).world = w ∧
    ((jtrans_add allocFail w t buf count offset).res = 0 ∨
      (jtrans_add allocFail w t buf count offset).res = -1) ∧
    ((jtrans_add allocFail w t buf count offset).res = 0 →
      (jtrans_add allocFail w t buf count offset).trans =
        { t with ops := t.ops ++ [⟨buf.take count, offset⟩] }) ∧
    ((jtrans_add allocFail w t buf count offset).res = -1 →
      (jtrans_add allocFail w t buf count offset).trans = t) := by
  cases allocFail <;> simp [jtrans_add]

theorem jtrans_add_frame_witness :
    (jtrans_add false ⟨fun _ => 0, [], 0, []⟩ ⟨0, [], []⟩ [1, 2, 3] 2 5).world =
      ⟨fun _ => 0, [], 0, []⟩ ∧
    (jtrans_add false ⟨fun _ => 0, [], 0, []⟩ ⟨0, [], []⟩ [1, 2, 3] 2 5).trans =
      ⟨0, [⟨[1, 2], 5⟩], []⟩ :=
  ⟨(jtrans_add_frame false ⟨fun _ => 0, [], 0, []⟩ ⟨0, [], []⟩ [1, 2, 3] 2 5).1,
    ((jtrans_add_frame false ⟨fun _ => 0, [], 0, []⟩ ⟨0, [], []⟩ [1, 2, 3] 2 5).2.2.1
      rfl).trans (by rfl)⟩

/-- C10: jtrans_rollback follows the same return-value convention as
jtrans_commit: for every rollback call it returns the number of bytes
written on success, −1 on error with atomic warranties preserved, or −2
on error with a possible break of atomic warranties. -/
theorem jtrans_rollback_return_convention (fault : Fault) (w : World) (t : Jtrans)
    (h : t.flags &&& J_NOROLLBACK = 0) :
    (fault = .ok → (jtrans_rollback fault w t).res = .ok (totalBytes t.undo) ∧
      resCode (jtrans_rollback fault w t).res = (totalBytes t.undo : Int)) ∧
    (∀ step, fault = .early step →
      resCode (jtrans_rollback fault w t).res = -1 ∧
      ∀ b, (jtrans_rollback fault w t).world.file b = w.file b) ∧
    (∀ k, fault = .apply k → resCode (jtrans_rollback fault w t).res = -2) := by
  have hres := jtrans_rollback_res fault w t h
  have hworld := jtrans_rollback_world fault w t h
  refine ⟨?_, ?_, ?_⟩
  · rintro rfl
    rw [hres]
    constructor
    · show CommitResult.ok (totalBytes t.undo.reverse) = .ok (totalBytes t.undo)
      rw [totalBytes_reverse]
    · show resCode (.ok (totalBytes t.undo.reverse)) = (totalBytes t.undo : Int)
      rw [totalBytes_reverse]
      rfl
  · rintro step rfl
    rw [hres, hworld]
    exact ⟨rfl, fun b => rfl⟩
  · rintro k rfl
    rw [hres]
    rfl

theorem jtrans_rollback_return_convention_witness :
    (jtrans_rollback .ok ⟨fun _ => 0, [], 0, []⟩ ⟨0, [], [⟨[4, 5], 2⟩]⟩).res =
      .ok (totalBytes [⟨[4, 5], 2⟩]) ∧
    resCode (jtrans_rollback .ok ⟨fun _ => 0, [], 0, []⟩
      ⟨0, [], [⟨[4, 5], 2⟩]⟩).res = (totalBytes [⟨[4, 5], 2⟩] : Int) :=
  (jtrans_rollback_return_convention .ok ⟨fun _ => 0, [], 0, []⟩
    ⟨0, [], [⟨[4, 5], 2⟩]⟩ (by decide)).1 rfl

/-! ### Crash states over an arbitrary journal

Modelled from the spec: at any crash instant the journal directory
holds an arbitrary list of record files — a lingering queue of
committed-but-unapplied records, the bodies of in-progress commits, and
the record of a commit caught mid-apply can all coexist (concurrent
commits hold disjoint range locks, so their interleaved applies equal
per-record prefix applications taken in journal order).  §4.4's write
ordering gives the one constraint: operations reach the data file only
after the record's COMMITTED bit is durable, so a record without the
bit has none of its operations applied.  A crash state is therefore the
base file (the content the already-retired transactions left behind)
with, for each journal record, a prefix of its operations applied —
an empty prefix whenever the record is uncommitted. -/

/-- The data file of a crash state: for each journal record, in journal
order, the first `k` of its operations have reached the data file. -/
def partialApply (f : File) (rks : List (Record × Nat)) : File :=
  rks.foldl (fun g rk => applyOps g (rk.1.ops.take rk.2)) f

/-- The file the spec's recovery invariant prescribes: on the base
content, apply in journal order the full operation list of exactly
those records whose COMMITTED bit is set; records without the bit
contribute nothing. -/
def applyCommitted (f : File) (rs : List Record) : File :=
  rs.foldl (fun g r => if r.flags &&& J_COMMITTED ≠ 0 then applyOps g r.ops else g) f

/-- Whether some committed record of the journal covers byte `b`. -/
def committedCovers (rs : List Record) (b : Nat) : Prop :=
  ∃ r ∈ rs, r.flags &&& J_COMMITTED ≠ 0 ∧ coveredBy r.ops b

/-- On a byte some committed record covers, the recovery fold is
independent of the file it starts from. -/
theorem foldl_recover_base_free (rs : List Record) (b : Nat) :
    committedCovers rs b →
    ∀ f g : File, rs.foldl recoverRec f b = rs.foldl recoverRec g b := by
  induction rs using List.reverseRecOn with
  | nil =>
    intro h
    simp [committedCovers] at h
  | append_singleton rest r ih =>
    intro h f g
    rw [List.foldl_append, List.foldl_append]
    simp only [List.foldl_cons, List.foldl_nil]
    by_cases hc : r.flags &&& J_COMMITTED ≠ 0 ∧ coveredBy r.ops b
    · unfold recoverRec
      rw [if_pos hc.1, if_pos hc.1]
      exact applyOps_covered_base_free _ _ r.ops b hc.2
    · have hrest : committedCovers rest b := by
        obtain ⟨r', hmem, hr'⟩ := h
        rcases List.mem_append.mp hmem with hm | hm
        · exact ⟨r', hm, hr'⟩
        · rw [List.mem_singleton.mp hm] at hr'
          exact absurd hr' hc
      have hstep : ∀ X : File, recoverRec X r b = X b := by
        intro X
        unfold recoverRec
        by_cases hcm : r.flags &&& J_COMMITTED ≠ 0
        · rw [if_pos hcm]
          apply applyOps_not_covered
          intro hcov
          exact hc ⟨hcm, hcov⟩
        · rw [if_neg hcm]
      rw [hstep, hstep]
      exact ih hrest f g

/-- On a byte no committed record covers, recovery is the identity. -/
theorem foldl_recover_not_covered (rs : List Record) (b : Nat) :
    ¬ committedCovers rs b → ∀ f : File, rs.foldl recoverRec f b = f b := by
  induction rs with
  | nil =>
    intro _ f
    rfl
  | cons r rest ih =>
    intro h f
    rw [List.foldl_cons]
    have hrest : ¬ committedCovers rest b := by
      rintro ⟨r', hm, hr'⟩
      exact h ⟨r', List.mem_cons_of_mem r hm, hr'⟩
    rw [ih hrest]
    unfold recoverRec
    by_cases hcm : r.flags &&& J_COMMITTED ≠ 0
    · rw [if_pos hcm]
      apply applyOps_not_covered
      intro hcov
      exact h ⟨r, List.mem_cons_self r rest, hcm, hcov⟩
    · rw [if_neg hcm]

/-- On a byte no committed record covers, the crash state's partial
applications never touch the byte: uncommitted records have applied
nothing, and committed ones do not reach it. -/
theorem partialApply_not_covered (rks : List (Record × Nat)) (b : Nat) :
    (∀ rk ∈ rks, rk.1.flags &&& J_COMMITTED = 0 → rk.2 = 0) →
    ¬ committedCovers (rks.map Prod.fst) b →
    ∀ f : File, partialApply f rks b = f b := by
  induction rks with
  | nil =>
    intro _ _ f
    rfl
  | cons rk rks ih =>
    intro hun h f
    have hunrest : ∀ rk' ∈ rks, rk'.1.flags &&& J_COMMITTED = 0 → rk'.2 = 0 :=
      fun rk' hm => hun rk' (List.mem_cons_of_mem rk hm)
    have hrest : ¬ committedCovers (rks.map Prod.fst) b := by
      rintro ⟨r', hm, hr'⟩
      exact h ⟨r', List.mem_cons_of_mem rk.1 hm, hr'⟩
    show partialApply (applyOps f (rk.1.ops.take rk.2)) rks b = f b
    rw [ih hunrest hrest]
    apply applyOps_not_covered
    intro ⟨op, hmem, hcov⟩
    have hmem' : op ∈ rk.1.ops := List.mem_of_mem_take hmem
    by_cases hcm : rk.1.flags &&& J_COMMITTED ≠ 0
    · exact h ⟨rk.1, List.mem_cons_self rk.1 _, hcm, op, hmem', hcov⟩
    · push_neg at hcm
      rw [hun rk (List.mem_cons_self rk rks) hcm] at hmem
      simp at hmem

/-- Recovery absorbs the crash state's partial applications: the
recovery fold started on the crashed file equals the recovery fold
started on the base file. -/
theorem recover_partialApply (f : File) (rks : List (Record × Nat))
    (hun : ∀ rk ∈ rks, rk.1.flags &&& J_COMMITTED = 0 → rk.2 = 0) (b : Nat) :
    (rks.map Prod.fst).foldl recoverRec (partialApply f rks) b =
      (rks.map Prod.fst).foldl recoverRec f b := by
  by_cases h : committedCovers (rks.map Prod.fst) b
  · exact foldl_recover_base_free _ b h _ f
  · rw [foldl_recover_not_covered _ b h _, foldl_recover_not_covered _ b h f,
      partialApply_not_covered rks b hun h f]

/-- C2: For every crash occurring at any instant during operation, a
subsequent jfsck run restores the data file to a state equivalent to
some prefix of the successfully committed transaction sequence: every
journal record whose COMMITTED bit is durably set on disk becomes fully
reflected in the data file, and no record without the COMMITTED bit set
is reflected.  The crash state is an arbitrary journal `rks.map
Prod.fst` whose records each have an applied prefix (empty for the
uncommitted ones) over the base content `f` that the retired committed
transactions left behind; recovery yields exactly `applyCommitted`:
that base extended, in journal order, by every committed record in
full and by no uncommitted record. -/
theorem jfsck_recover_committed_prefix (f : File) (rks : List (Record × Nat))
    (counter : Nat) (locks : List (Nat × Nat))
    (hun : ∀ rk ∈ rks, rk.1.flags &&& J_COMMITTED = 0 → rk.2 = 0) :
    (jfsck_recover ⟨partialApply f rks, rks.map Prod.fst, counter, locks⟩).journal
      = [] ∧
    ∀ b, (jfsck_recover ⟨partialApply f rks, rks.map Prod.fst, counter,
        locks⟩).file b = applyCommitted f (rks.map Prod.fst) b := by
  refine ⟨rfl, ?_⟩
  intro b
  show (rks.map Prod.fst).foldl recoverRec (partialApply f rks) b = _
  rw [recover_partialApply f rks hun b]
  rfl

theorem jfsck_recover_committed_prefix_witness :
    (∀ rk ∈ [((⟨1, 8, [⟨[3, 4], 0⟩], []⟩ : Record), 1),
        ((⟨2, 0, [⟨[9], 5⟩], []⟩ : Record), 0),
        ((⟨3, 8, [⟨[7], 2⟩], []⟩ : Record), 0)],
      rk.1.flags &&& J_COMMITTED = 0 → rk.2 = 0) ∧
    ((jfsck_recover ⟨partialApply (fun _ => 0)
        [(⟨1, 8, [⟨[3, 4], 0⟩], []⟩, 1), (⟨2, 0, [⟨[9], 5⟩], []⟩, 0),
          (⟨3, 8, [⟨[7], 2⟩], []⟩, 0)],
        [(⟨1, 8, [⟨[3, 4], 0⟩], []⟩, 1), (⟨2, 0, [⟨[9], 5⟩], []⟩, 0),
          (⟨3, 8, [⟨[7], 2⟩], []⟩, 0)].map Prod.fst, 4, []⟩).journal = [] ∧
      ∀ b, (jfsck_recover ⟨partialApply (fun _ => 0)
        [(⟨1, 8, [⟨[3, 4], 0⟩], []⟩, 1), (⟨2, 0, [⟨[9], 5⟩], []⟩, 0),
          (⟨3, 8, [⟨[7], 2⟩], []⟩, 0)],
        [(⟨1, 8, [⟨[3, 4], 0⟩], []⟩, 1), (⟨2, 0, [⟨[9], 5⟩], []⟩, 0),
          (⟨3, 8, [⟨[7], 2⟩], []⟩, 0)].map Prod.fst, 4, []⟩).file b =
        applyCommitted (fun _ => 0)
          ([(⟨1, 8, [⟨[3, 4], 0⟩], []⟩, 1), (⟨2, 0, [⟨[9], 5⟩], []⟩, 0),
            (⟨3, 8, [⟨[7], 2⟩], []⟩, 0)].map Prod.fst) b) :=
  ⟨by decide, jfsck_recover_committed_prefix (fun _ => 0)
    [(⟨1, 8, [⟨[3, 4], 0⟩], []⟩, 1), (⟨2, 0, [⟨[9], 5⟩], []⟩, 0),
      (⟨3, 8, [⟨[7], 2⟩], []⟩, 0)] 4 [] (by decide)⟩

/-- Every crash point of §4.4's single-commit state machine is an
instance of the crash-state characterization: a base content, a journal
of per-record applied prefixes that are empty for uncommitted records,
and a prescribed recovery result that reflects the transaction exactly
when its commit mark was durable. -/
theorem diskAfter_is_crash_state (w : World) (t : Jtrans) (id : Nat)
    (p : CrashPoint) (hj : w.journal = []) :
    ∃ (f : File) (rks : List (Record × Nat)),
      (∀ rk ∈ rks, rk.1.flags &&& J_COMMITTED = 0 → rk.2 = 0) ∧
      (diskAfter w t id p).journal = rks.map Prod.fst ∧
      (∀ b, (diskAfter w t id p).file b = partialApply f rks b) ∧
      ∀ b, applyCommitted f (rks.map Prod.fst) b =
        if crashCommitted p then applyOps w.file t.ops b else w.file b := by
  cases p with
  | preRecord =>
    refine ⟨w.file, [], ?_, ?_, ?_, ?_⟩
    · intro rk hm
      simp at hm
    · exact hj
    · intro b
      rfl
    · intro b
      rfl
  | bodyWritten =>
    refine ⟨w.file, [(⟨id, clearCommitted t.flags, t.ops, commitUndo w t⟩, 0)],
      ?_, ?_, ?_, ?_⟩
    · intro rk hm
      rw [List.mem_singleton.mp hm]
      intro _
      rfl
    · show w.journal ++ [_] = _
      rw [hj]
      rfl
    · intro b
      rfl
    · intro b
      have hnc := clearCommitted_not_committed t.flags
      simp [applyCommitted, crashCommitted, hnc]
  | marked k =>
    refine ⟨w.file, [(⟨id, t.flags ||| J_COMMITTED, t.ops, commitUndo w t⟩, k)],
      ?_, ?_, ?_, ?_⟩
    · intro rk hm
      rw [List.mem_singleton.mp hm]
      intro hcm
      exact absurd hcm (committed_set t.flags)
    · show w.journal ++ [_] = _
      rw [hj]
      rfl
    · intro b
      rfl
    · intro b
      have hcs := committed_set t.flags
      simp [applyCommitted, crashCommitted, hcs]
  | retired =>
    refine ⟨applyOps w.file t.ops, [], ?_, ?_, ?_, ?_⟩
    · intro rk hm
      simp at hm
    · exact hj
    · intro b
      rfl
    · intro b
      rfl

/-! ## The journal record codec

Modelled from the spec: the wire layout of §6 — little-endian header
(magic, version, flags, n_ops, total_len, trans_id), per-operation
descriptors (off:int64, len:uint32), concatenated operation payloads,
concatenated undo images when `J_NOROLLBACK` is not set, and a trailing
4-byte checksum over all preceding bytes.  Bytes are naturals below
256. -/

/-- Modelled from the spec: the record magic is a fixed constant; the
spec does not pin its value, only that decode validates it. -/
def J_MAGIC : Nat := 0x1a2b3c4d

/-- The record format version (starts at 1). -/
def J_VERSION : Nat := 1

/-- Little-endian encoding of `n` on `w` bytes (mod 256^w). -/
def encLE : Nat → Nat → List Nat
  | 0, _ => []
  | wi + 1, n => n % 256 :: encLE wi (n / 256)

/-- Little-endian decoding of a byte list. -/
def decLE : List Nat → Nat
  | [] => 0
  | x :: rest => x + 256 * decLE rest

/-- Modelled from the spec: "Checksum algorithm is a stable hash over
the entire record excluding the checksum bytes themselves".  The spec
fixes no algorithm; the model uses the byte sum modulo 2^32, which has
the single-byte-perturbation detection the spec's invariant 6 asks
for. -/
def checksum (bs : List Nat) : Nat := bs.sum % 2 ^ 32

/-- One operation descriptor on the wire: off:int64 then len:uint32. -/
def encodeDesc (op : Operation) : List Nat :=
  encLE 8 op.offset ++ encLE 4 op.buf.length

/-- All descriptors, in operation order. -/
def encodeDescs (ops : List Operation) : List Nat :=
  (ops.map encodeDesc).flatten

/-- Concatenated operation payloads, in order. -/
def payloadBytes (ops : List Operation) : List Nat :=
  (ops.map (fun op => op.buf)).flatten

/-- The record bytes before the trailing checksum. -/
def encodeBody (r : Record) : List Nat :=
  encLE 4 J_MAGIC ++ encLE 4 J_VERSION ++ encLE 4 r.flags ++
  encLE 4 r.ops.length ++ encLE 8 (totalBytes r.ops) ++ encLE 8 r.id ++
  encodeDescs r.ops ++ payloadBytes r.ops ++
  (if r.flags &&& J_NOROLLBACK = 0 then payloadBytes r.undo else [])

/-- Encode a journal record: body then trailing checksum. -/
def encode (r : Record) : List Nat :=
  encodeBody r ++ encLE 4 (checksum (encodeBody r))

/-- Take exactly `wi` bytes off the front of the stream. -/
def takeN (wi : Nat) (bs : List Nat) : Option (List Nat × List Nat) :=
  if wi ≤ bs.length then some (bs.take wi, bs.drop wi) else none

/-- Parse `n` descriptors off the front of the stream. -/
def parseDescs : Nat → List Nat → Option (List (Nat × Nat) × List Nat)
  | 0, bs => some ([], bs)
  | n + 1, bs =>
    match takeN 8 bs with
    | none => none
    | some (offb, bs1) =>
      match takeN 4 bs1 with
      | none => none
      | some (lenb, bs2) =>
        match parseDescs n bs2 with
        | none => none
        | some (ds, rest) => some ((decLE offb, decLE lenb) :: ds, rest)

/-- Split payloads of the given lengths off the front of the stream. -/
def splitPayloads : List Nat → List Nat → Option (List (List Nat) × List Nat)
  | [], bs => some ([], bs)
  | len :: lens, bs =>
    match takeN len bs with
    | none => none
    | some (p, bs1) =>
      match splitPayloads lens bs1 with
      | none => none
      | some (ps, rest) => some (p :: ps, rest)

/-- Modelled from the spec: decode a journal record — validate magic
and version, reread the declared lengths, verify that the stream
carries exactly the declared sizes, verify the trailing checksum over
bytes [0, END−4), and reconstruct the record. -/
def decode (bs : List Nat) : Option Record :=
  match takeN 4 bs with
  | none => none
  | some (magicb, bs1) =>
  match takeN 4 bs1 with
  | none => none
  | some (verb, bs2) =>
  match takeN 4 bs2 with
  | none => none
  | some (flagsb, bs3) =>
  match takeN 4 bs3 with
  | none => none
  | some (nopsb, bs4) =>
  match takeN 8 bs4 with
  | none => none
  | some (tlenb, bs5) =>
  match takeN 8 bs5 with
  | none => none
  | some (idb, bs6) =>
  if decLE magicb ≠ J_MAGIC ∨ decLE verb ≠ J_VERSION then none
  else
    match parseDescs (decLE nopsb) bs6 with
    | none => none
    | some (ds, bs7) =>
      if (ds.map Prod.snd).sum ≠ decLE tlenb then none
      else
        match splitPayloads (ds.map Prod.snd) bs7 with
        | none => none
        | some (ps, bs8) =>
          match (if decLE flagsb &&& J_NOROLLBACK = 0
                 then splitPayloads (ds.map Prod.snd) bs8
                 else some ([], bs8)) with
          | none => none
          | some (us, bs9) =>
            if bs9.length = 4 then
              if decLE bs9 = checksum (bs.take (bs.length - 4)) then
                some { id := decLE idb, flags := decLE flagsb,
                       ops := List.zipWith (fun d p => ⟨p, d.1⟩) ds ps,
                       undo := List.zipWith (fun d u => ⟨u, d.1⟩) ds us }
              else none
            else none

/-- Well-formedness of a record for the wire: every field fits its
width, payload bytes are bytes, and the undo images (present exactly
when `J_NOROLLBACK` is clear) mirror the operations' offsets and
lengths. -/
def ValidRec (r : Record) : Prop :=
  r.flags < 2 ^ 32 ∧ r.id < 2 ^ 64 ∧ r.ops.length < 2 ^ 32 ∧
  totalBytes r.ops < 2 ^ 64 ∧
  (∀ op ∈ r.ops, op.offset < 2 ^ 64 ∧ op.buf.length < 2 ^ 32 ∧
    ∀ x ∈ op.buf, x < 256) ∧
  (r.flags &&& J_NOROLLBACK = 0 →
    r.undo.map (fun op => op.offset) = r.ops.map (fun op => op.offset) ∧
    r.undo.map (fun op => op.buf.length) = r.ops.map (fun op => op.buf.length) ∧
    ∀ op ∈ r.undo, ∀ x ∈ op.buf, x < 256) ∧
  (r.flags &&& J_NOROLLBACK ≠ 0 → r.undo = [])

/-! ### Little-endian facts -/

theorem encLE_length (wi n : Nat) : (encLE wi n).length = wi := by
  induction wi generalizing n with
  | zero => rfl
  | succ wi ih => simp [encLE, ih]

theorem decLE_encLE (wi n : Nat) (h : n < 256 ^ wi) : decLE (encLE wi n) = n := by
  induction wi generalizing n with
  | zero =>
    simp only [pow_zero, Nat.lt_one_iff] at h
    subst h
    rfl
  | succ wi ih =>
    have hdiv : n / 256 < 256 ^ wi := by
      rw [Nat.div_lt_iff_lt_mul (by norm_num : 0 < 256)]
      calc n < 256 ^ (wi + 1) := h
        _ = 256 ^ wi * 256 := by ring
    show n % 256 + 256 * decLE (encLE wi (n / 256)) = n
    rw [ih _ hdiv, Nat.mod_add_div]

theorem encLE_bytes_lt (wi n : Nat) : ∀ x ∈ encLE wi n, x < 256 := by
  induction wi generalizing n with
  | zero => intro x hx; simp [encLE] at hx
  | succ wi ih =>
    intro x hx
    rcases List.mem_cons.mp hx with h | h
    · subst h
      exact Nat.mod_lt _ (by norm_num)
    · exact ih _ x h

theorem takeN_append (wi : Nat) (a rest : List Nat) (h : a.length = wi) :
    takeN wi (a ++ rest) = some (a, rest) := by
  unfold takeN
  rw [if_pos]
  · rw [← h, List.take_left, List.drop_left]
  · rw [List.length_append]
    omega

/-! ### Codec stage lemmas -/

theorem parseDescs_encodeDescs (ops : List Operation) (rest : List Nat)
    (hops : ∀ op ∈ ops, op.offset < 2 ^ 64 ∧ op.buf.length < 2 ^ 32) :
    parseDescs ops.length (encodeDescs ops ++ rest) =
      some (ops.map (fun op => (op.offset, op.buf.length)), rest) := by
  induction ops with
  | nil => simp [parseDescs, encodeDescs]
  | cons op ops ih =>
    have hop := hops op (List.mem_cons_self op ops)
    have hrest : ∀ o ∈ ops, o.offset < 2 ^ 64 ∧ o.buf.length < 2 ^ 32 :=
      fun o ho => hops o (List.mem_cons_of_mem op ho)
    show parseDescs (ops.length + 1) (encodeDescs (op :: ops) ++ rest) = _
    have hshape : encodeDescs (op :: ops) ++ rest =
        encLE 8 op.offset ++ (encLE 4 op.buf.length ++ (encodeDescs ops ++ rest)) := by
      simp [encodeDescs, encodeDesc, List.append_assoc]
    rw [hshape]
    unfold parseDescs
    rw [takeN_append 8 _ _ (encLE_length 8 op.offset)]
    dsimp only
    rw [takeN_append 4 _ _ (encLE_length 4 op.buf.length)]
    dsimp only
    rw [ih hrest]
    dsimp only
    rw [decLE_encLE 8 op.offset hop.1, decLE_encLE 4 op.buf.length hop.2]
    rfl

theorem splitPayloads_flatten (ls : List (List Nat)) (rest : List Nat) :
    splitPayloads (ls.map List.length) (ls.flatten ++ rest) = some (ls, rest) := by
  induction ls with
  | nil => rfl
  | cons p ls ih =>
    show splitPayloads (p.length :: ls.map List.length)
      ((p :: ls).flatten ++ rest) = _
    have hshape : (p :: ls).flatten ++ rest = p ++ (ls.flatten ++ rest) := by
      simp [List.append_assoc]
    rw [hshape]
    unfold splitPayloads
    rw [takeN_append p.length p _ rfl]
    dsimp only
    rw [ih]

theorem zipWith_descs_payloads (ops : List Operation) :
    List.zipWith (fun (d : Nat × Nat) p => (⟨p, d.1⟩ : Operation))
      (ops.map (fun op => (op.offset, op.buf.length)))
      (ops.map (fun op => op.buf)) = ops := by
  induction ops with
  | nil => rfl
  | cons op ops ih => simp [ih]

theorem zipWith_descs_undo (ops undo : List Operation)
    (hoff : undo.map (fun op => op.offset) = ops.map (fun op => op.offset)) :
    List.zipWith (fun (d : Nat × Nat) u => (⟨u, d.1⟩ : Operation))
      (ops.map (fun op => (op.offset, op.buf.length)))
      (undo.map (fun op => op.buf)) = undo := by
  induction ops generalizing undo with
  | nil =>
    cases undo with
    | nil => rfl
    | cons u us => simp at hoff
  | cons op ops ih =>
    cases undo with
    | nil => simp at hoff
    | cons u us =>
      simp only [List.map_cons, List.cons.injEq] at hoff
      simp only [List.map_cons, List.zipWith_cons_cons, List.cons.injEq]
      constructor
      · show (⟨u.buf, op.offset⟩ : Operation) = u
        rw [← hoff.1]
      · exact ih us hoff.2

/-- Decoding an encoded well-formed record recovers the record. -/
theorem decode_encode (r : Record) (h : ValidRec r) : decode (encode r) = some r := by
  obtain ⟨hfl, hid, hnops, htlen, hops, hundoY, hundoN⟩ := h
  have hm : decLE (encLE 4 J_MAGIC) = J_MAGIC :=
    decLE_encLE 4 _ (by norm_num [J_MAGIC])
  have hv : decLE (encLE 4 J_VERSION) = J_VERSION :=
    decLE_encLE 4 _ (by norm_num [J_VERSION])
  have hf : decLE (encLE 4 r.flags) = r.flags := decLE_encLE 4 _ hfl
  have hn : decLE (encLE 4 r.ops.length) = r.ops.length := decLE_encLE 4 _ hnops
  have ht : decLE (encLE 8 (totalBytes r.ops)) = totalBytes r.ops :=
    decLE_encLE 8 _ htlen
  have hi : decLE (encLE 8 r.id) = r.id := decLE_encLE 8 _ hid
  have hck : decLE (encLE 4 (checksum (encodeBody r))) = checksum (encodeBody r) :=
    decLE_encLE 4 _ (Nat.mod_lt _ (by norm_num))
  have hUeq : (if r.flags &&& J_NOROLLBACK = 0 then payloadBytes r.undo else []) =
      payloadBytes r.undo := by
    by_cases hrb : r.flags &&& J_NOROLLBACK = 0
    · rw [if_pos hrb]
    · rw [if_neg hrb, hundoN hrb]
      rfl
  have hbody : encodeBody r =
      encLE 4 J_MAGIC ++ (encLE 4 J_VERSION ++ (encLE 4 r.flags ++
        (encLE 4 r.ops.length ++ (encLE 8 (totalBytes r.ops) ++ (encLE 8 r.id ++
        (encodeDescs r.ops ++ (payloadBytes r.ops ++ payloadBytes r.undo))))))) := by
    unfold encodeBody
    rw [hUeq]
    simp [List.append_assoc]
  have hshape : encode r =
      encLE 4 J_MAGIC ++ (encLE 4 J_VERSION ++ (encLE 4 r.flags ++
        (encLE 4 r.ops.length ++ (encLE 8 (totalBytes r.ops) ++ (encLE 8 r.id ++
        (encodeDescs r.ops ++ (payloadBytes r.ops ++ (payloadBytes r.undo ++
        encLE 4 (checksum (encodeBody r)))))))))) := by
    unfold encode
    nth_rewrite 1 [hbody]
    simp [List.append_assoc]
  have htake : (encode r).take ((encode r).length - 4) = encodeBody r := by
    unfold encode
    rw [List.length_append, encLE_length, Nat.add_sub_cancel]
    exact List.take_left _ _
  have hsum : ((r.ops.map (fun op => (op.offset, op.buf.length))).map Prod.snd).sum =
      totalBytes r.ops := by
    rw [List.map_map]
    rfl
  have hP : ∀ rest, splitPayloads
      ((r.ops.map (fun op => (op.offset, op.buf.length))).map Prod.snd)
      (payloadBytes r.ops ++ rest) = some (r.ops.map (fun op => op.buf), rest) := by
    intro rest
    have hmap : (r.ops.map (fun op => (op.offset, op.buf.length))).map Prod.snd =
        (r.ops.map (fun op => op.buf)).map List.length := by
      rw [List.map_map, List.map_map]
      rfl
    rw [hmap]
    exact splitPayloads_flatten _ _
  have hUstage : ∀ tail, (if r.flags &&& J_NOROLLBACK = 0
      then splitPayloads
        ((r.ops.map (fun op => (op.offset, op.buf.length))).map Prod.snd)
        (payloadBytes r.undo ++ tail)
      else some ([], payloadBytes r.undo ++ tail)) =
      some (r.undo.map (fun op => op.buf), tail) := by
    intro tail
    by_cases hrb : r.flags &&& J_NOROLLBACK = 0
    · rw [if_pos hrb]
      have hmap : (r.ops.map (fun op => (op.offset, op.buf.length))).map Prod.snd =
          (r.undo.map (fun op => op.buf)).map List.length := by
        rw [List.map_map, List.map_map]
        have hl := (hundoY hrb).2.1
        calc r.ops.map (fun op => op.buf.length)
            = r.undo.map (fun op => op.buf.length) := hl.symm
          _ = r.undo.map (List.length ∘ fun op => op.buf) := rfl
      rw [hmap]
      exact splitPayloads_flatten _ _
    · rw [if_neg hrb, hundoN hrb]
      rfl
  have hzundo : List.zipWith (fun (d : Nat × Nat) u => (⟨u, d.1⟩ : Operation))
      (r.ops.map (fun op => (op.offset, op.buf.length)))
      (r.undo.map (fun op => op.buf)) = r.undo := by
    by_cases hrb : r.flags &&& J_NOROLLBACK = 0
    · exact zipWith_descs_undo r.ops r.undo (hundoY hrb).1
    · rw [hundoN hrb]
      simp
  unfold decode
  rw [htake, hshape]
  rw [takeN_append 4 _ _ (encLE_length 4 J_MAGIC)]
  dsimp only
  rw [takeN_append 4 _ _ (encLE_length 4 J_VERSION)]
  dsimp only
  rw [takeN_append 4 _ _ (encLE_length 4 r.flags)]
  dsimp only
  rw [takeN_append 4 _ _ (encLE_length 4 r.ops.length)]
  dsimp only
  rw [takeN_append 8 _ _ (encLE_length 8 (totalBytes r.ops))]
  dsimp only
  rw [takeN_append 8 _ _ (encLE_length 8 r.id)]
  dsimp only
  rw [hm, hv]
  rw [if_neg (by simp)]
  rw [hn]
  rw [parseDescs_encodeDescs r.ops _
    (fun op hop => ⟨(hops op hop).1, (hops op hop).2.1⟩)]
  dsimp only
  rw [ht, hsum]
  rw [if_neg (by simp)]
  rw [hP]
  dsimp only
  rw [hf]
  rw [hUstage]
  dsimp only
  rw [encLE_length]
  rw [if_pos rfl]
  rw [hck]
  rw [if_pos rfl]
  rw [hi, zipWith_descs_payloads, hzundo]

/-! ### Tamper rejection -/

theorem takeN_suffix {wi : Nat} {bs a rest : List Nat}
    (h : takeN wi bs = some (a, rest)) : rest = bs.drop wi ∧ wi ≤ bs.length := by
  unfold takeN at h
  by_cases hw : wi ≤ bs.length
  · rw [if_pos hw] at h
    simp only [Option.some.injEq, Prod.mk.injEq] at h
    exact ⟨h.2.symm, hw⟩
  · rw [if_neg hw] at h
    exact Option.noConfusion h

/-- Drop-suffixes compose. -/
theorem drop_suffix_trans {bs b1 b2 : List Nat} (h1 : ∃ k, b1 = bs.drop k)
    (h2 : ∃ k, b2 = b1.drop k) : ∃ k, b2 = bs.drop k := by
  obtain ⟨k1, rfl⟩ := h1
  obtain ⟨k2, rfl⟩ := h2
  exact ⟨k1 + k2, by rw [List.drop_drop]⟩

theorem parseDescs_suffix : ∀ (n : Nat) (bs : List Nat) (ds : List (Nat × Nat))
    (rest : List Nat), parseDescs n bs = some (ds, rest) → ∃ k, rest = bs.drop k := by
  intro n
  induction n with
  | zero =>
    intro bs ds rest h
    simp only [parseDescs, Option.some.injEq, Prod.mk.injEq] at h
    exact ⟨0, h.2.symm⟩
  | succ n ih =>
    intro bs ds rest h
    unfold parseDescs at h
    split at h
    next => exact Option.noConfusion h
    next offb bs1 heq1 =>
    split at h
    next => exact Option.noConfusion h
    next lenb bs2 heq2 =>
    split at h
    next => exact Option.noConfusion h
    next ds' rest' heq3 =>
    simp only [Option.some.injEq, Prod.mk.injEq] at h
    obtain ⟨k, hk⟩ := ih bs2 ds' rest' heq3
    rw [← h.2]
    exact drop_suffix_trans (drop_suffix_trans ⟨8, (takeN_suffix heq1).1⟩
      ⟨4, (takeN_suffix heq2).1⟩) ⟨k, hk⟩

theorem splitPayloads_suffix : ∀ (lens : List Nat) (bs : List Nat)
    (ps : List (List Nat)) (rest : List Nat),
    splitPayloads lens bs = some (ps, rest) → ∃ k, rest = bs.drop k := by
  intro lens
  induction lens with
  | nil =>
    intro bs ps rest h
    simp only [splitPayloads, Option.some.injEq, Prod.mk.injEq] at h
    exact ⟨0, h.2.symm⟩
  | cons len lens ih =>
    intro bs ps rest h
    unfold splitPayloads at h
    split at h
    next => exact Option.noConfusion h
    next p bs1 heq1 =>
    split at h
    next => exact Option.noConfusion h
    next ps' rest' heq2 =>
    simp only [Option.some.injEq, Prod.mk.injEq] at h
    obtain ⟨k, hk⟩ := ih bs1 ps' rest' heq2
    refine ⟨len + k, ?_⟩
    rw [← h.2, hk, (takeN_suffix heq1).1, List.drop_drop]

/-- Every accepted decode verified the trailing checksum against the
checksummed region [0, END−4). -/
theorem decode_checksumOk (bs : List Nat) (r : Record) (h : decode bs = some r) :
    decLE (bs.drop (bs.length - 4)) = checksum (bs.take (bs.length - 4)) := by
  unfold decode at h
  split at h
  next => exact Option.noConfusion h
  next magicb bs1 heq1 =>
  split at h
  next => exact Option.noConfusion h
  next verb bs2 heq2 =>
  split at h
  next => exact Option.noConfusion h
  next flagsb bs3 heq3 =>
  split at h
  next => exact Option.noConfusion h
  next nopsb bs4 heq4 =>
  split at h
  next => exact Option.noConfusion h
  next tlenb bs5 heq5 =>
  split at h
  next => exact Option.noConfusion h
  next idb bs6 heq6 =>
  split at h
  next => exact Option.noConfusion h
  next hmagic =>
  split at h
  next => exact Option.noConfusion h
  next ds bs7 heq7 =>
  split at h
  next => exact Option.noConfusion h
  next hsum =>
  split at h
  next => exact Option.noConfusion h
  next ps bs8 heq8 =>
  split at h
  next => exact Option.noConfusion h
  next us bs9 heq9 =>
  split at h
  next hlen =>
    split at h
    next hcksum =>
      have e1 : ∃ k, bs1 = bs.drop k := ⟨4, (takeN_suffix heq1).1⟩
      have e2 : ∃ k, bs2 = bs.drop k :=
        drop_suffix_trans e1 ⟨4, (takeN_suffix heq2).1⟩
      have e3 : ∃ k, bs3 = bs.drop k :=
        drop_suffix_trans e2 ⟨4, (takeN_suffix heq3).1⟩
      have e4 : ∃ k, bs4 = bs.drop k :=
        drop_suffix_trans e3 ⟨4, (takeN_suffix heq4).1⟩
      have e5 : ∃ k, bs5 = bs.drop k :=
        drop_suffix_trans e4 ⟨8, (takeN_suffix heq5).1⟩
      have e6 : ∃ k, bs6 = bs.drop k :=
        drop_suffix_trans e5 ⟨8, (takeN_suffix heq6).1⟩
      have e7 : ∃ k, bs7 = bs.drop k :=
        drop_suffix_trans e6 (parseDescs_suffix _ _ _ _ heq7)
      have e8 : ∃ k, bs8 = bs.drop k :=
        drop_suffix_trans e7 (splitPayloads_suffix _ _ _ _ heq8)
      have s9 : ∃ k, bs9 = bs.drop k := by
        by_cases hrb : decLE flagsb &&& J_NOROLLBACK = 0
        · rw [if_pos hrb] at heq9
          exact drop_suffix_trans e8 (splitPayloads_suffix _ _ _ _ heq9)
        · rw [if_neg hrb] at heq9
          simp only [Option.some.injEq, Prod.mk.injEq] at heq9
          exact drop_suffix_trans e8 ⟨0, heq9.2.symm⟩
      obtain ⟨K, hK⟩ := s9
      have hlen9 : bs9.length = 4 := hlen
      have hKlen : bs.length - K = 4 := by
        rw [hK, List.length_drop] at hlen9
        exact hlen9
      have hKeq : K = bs.length - 4 := by omega
      rw [hK, hKeq] at hcksum
      exact hcksum
    next => exact Option.noConfusion h
  next => exact Option.noConfusion h

theorem payloadBytes_lt (ops : List Operation)
    (h : ∀ op ∈ ops, ∀ x ∈ op.buf, x < 256) :
    ∀ x ∈ payloadBytes ops, x < 256 := by
  intro x hx
  obtain ⟨l, hl, hxl⟩ := List.mem_flatten.mp hx
  obtain ⟨op, hop, rfl⟩ := List.mem_map.mp hl
  exact h op hop x hxl

theorem encodeDescs_lt (ops : List Operation) :
    ∀ x ∈ encodeDescs ops, x < 256 := by
  intro x hx
  obtain ⟨l, hl, hxl⟩ := List.mem_flatten.mp hx
  obtain ⟨op, hop, rfl⟩ := List.mem_map.mp hl
  rcases List.mem_append.mp hxl with h | h
  · exact encLE_bytes_lt 8 op.offset x h
  · exact encLE_bytes_lt 4 op.buf.length x h

/-- Every byte of an encoded well-formed record is a byte. -/
theorem encode_bytes_lt (r : Record) (hval : ValidRec r) :
    ∀ x ∈ encode r, x < 256 := by
  obtain ⟨hfl, hid, hnops, htlen, hops, hundoY, hundoN⟩ := hval
  intro x hx
  unfold encode encodeBody at hx
  simp only [List.mem_append] at hx
  rcases hx with ((((((((h | h) | h) | h) | h) | h) | h) | h) | h) | h
  · exact encLE_bytes_lt 4 J_MAGIC x h
  · exact encLE_bytes_lt 4 J_VERSION x h
  · exact encLE_bytes_lt 4 r.flags x h
  · exact encLE_bytes_lt 4 r.ops.length x h
  · exact encLE_bytes_lt 8 (totalBytes r.ops) x h
  · exact encLE_bytes_lt 8 r.id x h
  · exact encodeDescs_lt r.ops x h
  · exact payloadBytes_lt r.ops (fun op hop => (hops op hop).2.2) x h
  · by_cases hrb : r.flags &&& J_NOROLLBACK = 0
    · rw [if_pos hrb] at h
      exact payloadBytes_lt r.undo (hundoY hrb).2.2 x h
    · rw [if_neg hrb] at h
      exact absurd h (List.not_mem_nil x)
  · exact encLE_bytes_lt 4 (checksum (encodeBody r)) x h

/-- Setting one element shifts the sum by the exchanged values. -/
theorem sum_set_exchange (l : List Nat) (i v : Nat) (hi : i < l.length) :
    (l.set i v).sum + l.getD i 0 = l.sum + v := by
  induction l generalizing i with
  | nil => simp at hi
  | cons a l ih =>
    cases i with
    | zero => simp [List.sum_cons]; omega
    | succ i =>
      have hi' : i < l.length := by simpa using hi
      have := ih i hi'
      simp only [List.set_cons_succ, List.sum_cons, List.getD_cons_succ]
      omega

/-- Perturbing one byte of the checksummed data changes the checksum. -/
theorem checksum_set_ne (l : List Nat) (i v : Nat) (hi : i < l.length)
    (hv : v ≠ l.getD i 0) (hvb : v < 256) (hb : ∀ x ∈ l, x < 256) :
    checksum (l.set i v) ≠ checksum l := by
  unfold checksum
  intro hmod
  have hmodeq : (l.set i v).sum ≡ l.sum [MOD 2 ^ 32] := hmod
  have h2 : (l.set i v).sum + l.getD i 0 ≡ l.sum + l.getD i 0 [MOD 2 ^ 32] :=
    hmodeq.add_right _
  rw [sum_set_exchange l i v hi] at h2
  have h3 : v ≡ l.getD i 0 [MOD 2 ^ 32] :=
    (Nat.ModEq.refl l.sum).add_left_cancel h2
  have hx : l.getD i 0 < 256 := by
    rw [List.getD_eq_getElem l 0 hi]
    exact hb _ (List.getElem_mem hi)
  have : v = l.getD i 0 := by
    have hv32 : v < 2 ^ 32 := lt_trans hvb (by norm_num)
    have hx32 : l.getD i 0 < 2 ^ 32 := lt_trans hx (by norm_num)
    have := h3
    unfold Nat.ModEq at this
    rwa [Nat.mod_eq_of_lt hv32, Nat.mod_eq_of_lt hx32] at this
  exact hv this

theorem encode_take (r : Record) :
    (encode r).take ((encode r).length - 4) = encodeBody r := by
  unfold encode
  rw [List.length_append, encLE_length, Nat.add_sub_cancel]
  exact List.take_left _ _

theorem encode_drop (r : Record) :
    (encode r).drop ((encode r).length - 4) = encLE 4 (checksum (encodeBody r)) := by
  unfold encode
  rw [List.length_append, encLE_length, Nat.add_sub_cancel]
  exact List.drop_left _ _

/-- Decoding rejects any single-byte perturbation of the checksummed
region of a well-formed encoded record. -/
theorem decode_set_ne (r : Record) (hval : ValidRec r) (i v : Nat)
    (hi : i < (encode r).length - 4) (hvb : v < 256)
    (hv : v ≠ (encode r).getD i 0) :
    decode ((encode r).set i v) = none := by
  by_contra hne
  obtain ⟨r2, hr⟩ := Option.ne_none_iff_exists'.mp hne
  have hok := decode_checksumOk _ r2 hr
  have hlenset : ((encode r).set i v).length = (encode r).length :=
    List.length_set _ _ _
  have hdrop : ((encode r).set i v).drop (((encode r).set i v).length - 4) =
      (encode r).drop ((encode r).length - 4) := by
    rw [hlenset]
    exact List.drop_set_of_lt v (encode r) (by omega)
  have htakeset : ((encode r).set i v).take (((encode r).set i v).length - 4) =
      ((encode r).take ((encode r).length - 4)).set i v := by
    rw [hlenset]
    exact List.set_take
  rw [hdrop, htakeset, encode_drop, encode_take] at hok
  have hcdec : decLE (encLE 4 (checksum (encodeBody r))) = checksum (encodeBody r) :=
    decLE_encLE 4 _ (Nat.mod_lt _ (by norm_num))
  rw [hcdec] at hok
  have hlen4 : 4 ≤ (encode r).length := by omega
  have hitake : i < (encodeBody r).length := by
    have := encode_take r
    have hlt : (encodeBody r).length = (encode r).length - 4 := by
      rw [← this, List.length_take]
      omega
    omega
  have hgetD : (encodeBody r).getD i 0 = (encode r).getD i 0 := by
    unfold encode
    rw [List.getD_eq_getElem?_getD, List.getD_eq_getElem?_getD,
      List.getElem?_append_left hitake]
  have hbytes : ∀ x ∈ encodeBody r, x < 256 := by
    intro x hx
    apply encode_bytes_lt r hval
    unfold encode
    exact List.mem_append_left _ hx
  exact checksum_set_ne (encodeBody r) i v hitake
    (by rw [hgetD]; exact hv) hvb hbytes hok.symm

instance (r : Record) : Decidable (ValidRec r) := by
  unfold ValidRec
  infer_instance

/-- C6: For every well-formed journal record, decoding then re-encoding
yields an identical byte stream, and decoding rejects every record
obtained from a well-formed one by perturbing any single byte of the
checksummed region (the checksum, computed over all bytes of the record
except the trailing 4 checksum bytes, no longer matches). -/
theorem codec_roundtrip_and_tamper (r : Record) (h : ValidRec r) :
    (decode (encode r)).map encode = some (encode r) ∧
    ∀ i v, i < (encode r).length - 4 → v < 256 → v ≠ (encode r).getD i 0 →
      decode ((encode r).set i v) = none := by
  constructor
  · rw [decode_encode r h]
    rfl
  · intro i v hi hvb hv
    exact decode_set_ne r h i v hi hvb hv

theorem codec_roundtrip_and_tamper_witness :
    ValidRec ⟨1, 2, [⟨[5], 0⟩], []⟩ ∧
    ((decode (encode ⟨1, 2, [⟨[5], 0⟩], []⟩)).map encode =
        some (encode ⟨1, 2, [⟨[5], 0⟩], []⟩) ∧
      ∀ i v, i < (encode ⟨1, 2, [⟨[5], 0⟩], []⟩).length - 4 → v < 256 →
        v ≠ (encode ⟨1, 2, [⟨[5], 0⟩], []⟩).getD i 0 →
        decode ((encode ⟨1, 2, [⟨[5], 0⟩], []⟩).set i v) = none) :=
  ⟨by decide, codec_roundtrip_and_tamper ⟨1, 2, [⟨[5], 0⟩], []⟩ (by decide)⟩

/-! ## The checker

Modelled from the spec: `jfsck` (§4.5) — open the data file, enumerate
the record files of the journal directory, classify each one via the
codec, count it into exactly one category, and reapply the valid
committed ones. -/

/-- The checker's classification of one record file (§4.2). -/
inductive RecClass where
  | invalid
  | in_progress
  | broken
  | corrupt
  | valid
  deriving Repr, DecidableEq

/-- Modelled from the spec: classify one record file on decode —
`broken` on a parse failure before the payloads (truncated header or
descriptors), `invalid` on bad magic or version, `corrupt` on a size or
checksum mismatch, `in_progress` when the record parses but the
COMMITTED bit is absent, `valid` otherwise. -/
def classifyRec (bs : List Nat) : RecClass :=
  match takeN 4 bs with
  | none => .broken
  | some (magicb, bs1) =>
  match takeN 4 bs1 with
  | none => .broken
  | some (verb, bs2) =>
  match takeN 4 bs2 with
  | none => .broken
  | some (flagsb, bs3) =>
  match takeN 4 bs3 with
  | none => .broken
  | some (nopsb, bs4) =>
  match takeN 8 bs4 with
  | none => .broken
  | some (tlenb, bs5) =>
  match takeN 8 bs5 with
  | none => .broken
  | some (_idb, bs6) =>
  if decLE magicb ≠ J_MAGIC ∨ decLE verb ≠ J_VERSION then .invalid
  else
    match parseDescs (decLE nopsb) bs6 with
    | none => .broken
    | some (ds, bs7) =>
      if (ds.map Prod.snd).sum ≠ decLE tlenb then .corrupt
      else
        match splitPayloads (ds.map Prod.snd) bs7 with
        | none => .corrupt
        | some (_, bs8) =>
          match (if decLE flagsb &&& J_NOROLLBACK = 0
                 then splitPayloads (ds.map Prod.snd) bs8
                 else some ([], bs8)) with
          | none => .corrupt
          | some (_, bs9) =>
            if bs9.length ≠ 4 then .corrupt
            else if decLE bs9 ≠ checksum (bs.take (bs.length - 4)) then .corrupt
            else if decLE flagsb &&& J_COMMITTED = 0 then .in_progress
            else .valid

/-- The result of a `jfsck()` run (`struct jfsck_result` of the
header): the total count and the per-category counts. -/
structure jfsck_result where
  total : Nat
  invalid : Nat
  in_progress : Nat
  broken : Nat
  corrupt : Nat
  apply_error : Nat
  reapplied : Nat
  deriving Repr, DecidableEq

/-- The all-zero counts the checker starts from. -/
def emptyResult : jfsck_result := ⟨0, 0, 0, 0, 0, 0, 0⟩

/-- Modelled from the spec: the checker's scan — classify each record
file, count it in exactly one category and in the total; a valid
committed record is reapplied and counted into `reapplied`, or into
`apply_error` when the injected I/O fault hits its apply. -/
def jfsck_scan (applyFail : Nat → Bool) : Nat → List (List Nat) → jfsck_result
  | _, [] => emptyResult
  | i, bs :: rest =>
    let r := jfsck_scan applyFail (i + 1) rest
    match classifyRec bs with
    | .invalid => { r with total := r.total + 1, invalid := r.invalid + 1 }
    | .in_progress =>
        { r with total := r.total + 1, in_progress := r.in_progress + 1 }
    | .broken => { r with total := r.total + 1, broken := r.broken + 1 }
    | .corrupt => { r with total := r.total + 1, corrupt := r.corrupt + 1 }
    | .valid =>
      if applyFail i then
        { r with total := r.total + 1, apply_error := r.apply_error + 1 }
      else
        { r with total := r.total + 1, reapplied := r.reapplied + 1 }

/-- Modelled from the spec: `jfsck` — `J_ENOENT` when there is no such
data file, `J_ENOJOURNAL` when there is no journal at the given path,
`J_ENOMEM` when memory cannot be allocated; otherwise scan the journal
directory and return 0 with the counts. -/
def jfsck (fileExists hasJournal memOk : Bool) (applyFail : Nat → Bool)
    (records : List (List Nat)) : Int × jfsck_result :=
  if ¬fileExists then (J_ENOENT, emptyResult)
  else if ¬hasJournal then (J_ENOJOURNAL, emptyResult)
  else if ¬memOk then (J_ENOMEM, emptyResult)
  else (J_ESUCCESS, jfsck_scan applyFail 0 records)

/-- Each scanned record bumps the total and exactly one category. -/
theorem jfsck_scan_total (applyFail : Nat → Bool) :
    ∀ (i : Nat) (records : List (List Nat)),
    (jfsck_scan applyFail i records).total =
      (jfsck_scan applyFail i records).invalid +
      (jfsck_scan applyFail i records).in_progress +
      (jfsck_scan applyFail i records).broken +
      (jfsck_scan applyFail i records).corrupt +
      (jfsck_scan applyFail i records).apply_error +
      (jfsck_scan applyFail i records).reapplied := by
  intro i records
  induction records generalizing i with
  | nil => rfl
  | cons bs rest ih =>
    unfold jfsck_scan
    cases hcl : classifyRec bs
    · simp only []
      have := ih (i + 1)
      omega
    · simp only []
      have := ih (i + 1)
      omega
    · simp only []
      have := ih (i + 1)
      omega
    · simp only []
      have := ih (i + 1)
      omega
    · have hsum := ih (i + 1)
      by_cases haf : applyFail i <;> simp [haf] <;> omega

/-- C7: For every jfsck run that completes successfully (returns 0),
the result struct satisfies total = invalid + in_progress + broken +
corrupt + apply_error + reapplied, i.e. the total count equals the sum
of all category counts. -/
theorem jfsck_total_eq_sum (fileExists hasJournal memOk : Bool)
    (applyFail : Nat → Bool) (records : List (List Nat))
    (h : (jfsck fileExists hasJournal memOk applyFail records).1 = 0) :
    (jfsck fileExists hasJournal memOk applyFail records).2.total =
      (jfsck fileExists hasJournal memOk applyFail records).2.invalid +
      (jfsck fileExists hasJournal memOk applyFail records).2.in_progress +
      (jfsck fileExists hasJournal memOk applyFail records).2.broken +
      (jfsck fileExists hasJournal memOk applyFail records).2.corrupt +
      (jfsck fileExists hasJournal memOk applyFail records).2.apply_error +
      (jfsck fileExists hasJournal memOk applyFail records).2.reapplied := by
  cases fileExists <;> cases hasJournal <;> cases memOk <;>
    simp [jfsck, J_ENOENT, J_ENOJOURNAL, J_ENOMEM, J_ESUCCESS] at h ⊢
  exact jfsck_scan_total applyFail 0 records

theorem jfsck_total_eq_sum_witness :
    (jfsck true true true (fun _ => false) [[]]).1 = 0 ∧
    (jfsck true true true (fun _ => false) [[]]).2.total =
      (jfsck true true true (fun _ => false) [[]]).2.invalid +
      (jfsck true true true (fun _ => false) [[]]).2.in_progress +
      (jfsck true true true (fun _ => false) [[]]).2.broken +
      (jfsck true true true (fun _ => false) [[]]).2.corrupt +
      (jfsck true true true (fun _ => false) [[]]).2.apply_error +
      (jfsck true true true (fun _ => false) [[]]).2.reapplied :=
  ⟨rfl, jfsck_total_eq_sum true true true (fun _ => false) [[]] rfl⟩

/-- C8: The public constants have exactly the documented values: flags
NOLOCK=1, NOROLLBACK=2, LINGER=4, COMMITTED=8, ROLLBACKED=16,
ROLLBACKING=32, RDONLY=64 (shared between the API and the on-disk
record flags field), and checker sentinels 0=success, −1=no such data
file, −2=no journal at the given path, −3=out of memory. -/
theorem public_constants_values :
    J_NOLOCK = 1 ∧ J_NOROLLBACK = 2 ∧ J_LINGER = 4 ∧ J_COMMITTED = 8 ∧
    J_ROLLBACKED = 16 ∧ J_ROLLBACKING = 32 ∧ J_RDONLY = 64 ∧
    J_ESUCCESS = 0 ∧ J_ENOENT = -1 ∧ J_ENOJOURNAL = -2 ∧ J_ENOMEM = -3 :=
  ⟨rfl, rfl, rfl, rfl, rfl, rfl, rfl, rfl, rfl, rfl, rfl⟩
